import Mathlib

/-!
Verification of the memory-limit extraction and recovery logic of the
`onlinejudge_command` modules `atcoder_robust.py` and
`atcoder_memory_limit_patch.py`.

The extractor is built on Python regular expressions; we embed the exact
regexes used by the source as terms of a small regex language together with a
backtracking matcher that mirrors the semantics of Python `re` (leftmost
search position wins, greedy quantifiers, backtracking in priority order,
`re.IGNORECASE`).  All character classes are the ASCII instances of the
corresponding Python classes, which cover the character ranges of the pages
this code handles.
-/

/-- ASCII whitespace, the relevant instance of the regex class backslash-s. -/
def isSpaceC (c : Char) : Bool :=
  c == ' ' || c == '\t' || c == '\n' || c == '\r' ||
  c == Char.ofNat 11 || c == Char.ofNat 12

/-- Decimal digit, the regex class backslash-d. -/
def isDigitC (c : Char) : Bool :=
  '0' ≤ c && c ≤ '9'

/-- Word character for word boundaries: ASCII alphanumerics, underscore, and
the non-ASCII range (the pages hold CJK word characters there). -/
def isWordC (c : Char) : Bool :=
  c.isAlphanum || c == '_' || decide (128 ≤ c.toNat)

/-- The class of the unit prefix letters, `[KMGT]` under IGNORECASE. -/
def isKMGTUnit (c : Char) : Bool :=
  c.toLower == 'k' || c.toLower == 'm' || c.toLower == 'g' || c.toLower == 't'

/-- The literal `B` under IGNORECASE. -/
def isBUnit (c : Char) : Bool :=
  c.toLower == 'b'

/-- The class `[:\s]` used after the label text. -/
def isColonSpace (c : Char) : Bool :=
  c == ':' || isSpaceC c

/-- The negated class `[^>]`. -/
def notGt (c : Char) : Bool :=
  !(c == '>')

/-- The negated class `[^<]`. -/
def notLt (c : Char) : Bool :=
  !(c == '<')

/-- Case-insensitive character comparison used for literals under
`re.IGNORECASE`. -/
def charEqCI (a b : Char) : Bool :=
  a.toLower == b.toLower

/-- The fragment of regular expression syntax used by the six patterns of the
source: literals, character classes, greedy star / plus / optional,
concatenation, and the word boundary. -/
inductive RE where
  | eps : RE
  | lit : List Char → RE
  | cls : (Char → Bool) → RE
  | star : (Char → Bool) → RE
  | plus : (Char → Bool) → RE
  | opt : RE → RE
  | cat : RE → RE → RE
  | bnd : RE

/-- Word-character test on the character preceding the current position. -/
def prevWord : Option Char → Bool
  | none => false
  | some c => isWordC c

/-- Word-character test on the character at the current position. -/
def headWord : List Char → Bool
  | [] => false
  | c :: _ => isWordC c

/-- Greedy star over a character class: consume as many characters as
possible, handing shorter matches to the continuation only on backtracking.
The first component of the continuation is the last character consumed so
far (for word boundaries). -/
def starM {α : Type} (p : Char → Bool) (prev : Option Char) (s : List Char)
    (k : Option Char → List Char → Option α) : Option α :=
  match s with
  | [] => k prev []
  | c :: rest =>
    if p c then (starM p (some c) rest k) <|> k prev (c :: rest)
    else k prev (c :: rest)

/-- Case-insensitive literal matching. -/
def litM {α : Type} (cs : List Char) (prev : Option Char) (s : List Char)
    (k : Option Char → List Char → Option α) : Option α :=
  match cs, s with
  | [], _ => k prev s
  | _ :: _, [] => none
  | c :: cs2, x :: xs => if charEqCI c x then litM cs2 (some x) xs k else none

/-- Backtracking matcher in continuation-passing style.  Alternatives are
tried in the priority order of a backtracking engine (greedy quantifiers
longest first, optional parts present first), so the first `some` produced
is exactly the match Python `re` returns. -/
def mAt {α : Type} : RE → Option Char → List Char →
    (Option Char → List Char → Option α) → Option α
  | .eps, prev, s, k => k prev s
  | .lit cs, prev, s, k => litM cs prev s k
  | .cls p, _, s, k =>
    match s with
    | [] => none
    | c :: rest => if p c then k (some c) rest else none
  | .star p, prev, s, k => starM p prev s k
  | .plus p, _, s, k =>
    match s with
    | [] => none
    | c :: rest => if p c then starM p (some c) rest k else none
  | .opt r, prev, s, k => (mAt r prev s k) <|> k prev s
  | .cat r1 r2, prev, s, k => mAt r1 prev s (fun p2 s2 => mAt r2 p2 s2 k)
  | .bnd, prev, s, k =>
    if prevWord prev != headWord s then k prev s else none

/-- A source pattern split around its single capture group: the part before
the group, the group itself, and the part after it. -/
structure Pat where
  pre : RE
  grp : RE
  post : RE

/-- Anchored match of a pattern at the current position.  Returns the text of
the capture group, the character preceding the rest, and the rest of the
input after the whole match. -/
def matchPatAt (P : Pat) (prev : Option Char) (s : List Char) :
    Option (List Char × Option Char × List Char) :=
  mAt P.pre prev s (fun p1 s1 =>
    mAt P.grp p1 s1 (fun p2 s2 =>
      mAt P.post p2 s2 (fun p3 s3 =>
        some (s1.take (s1.length - s2.length), p3, s3))))

/-- `re.search`: try the pattern anchored at each position from left to
right; the capture of the first position that matches wins. -/
def searchAux (P : Pat) (prev : Option Char) (s : List Char) :
    Option (List Char) :=
  match matchPatAt P prev s with
  | some (g, _, _) => some g
  | none =>
    match s with
    | [] => none
    | c :: rest => searchAux P (some c) rest

/-- `re.findall`: non-overlapping matches scanned from the left, collecting
the capture groups in document order.  A zero-width match advances the scan
by one character, as in Python.  The fuel is an upper bound on the number of
scan steps; `length + 1` always suffices. -/
def findallAux (P : Pat) : Nat → Option Char → List Char → List (List Char)
  | 0, _, _ => []
  | fuel + 1, prev, s =>
    match matchPatAt P prev s with
    | some (g, p2, rest) =>
      if rest.length < s.length then g :: findallAux P fuel p2 rest
      else
        match s with
        | [] => [g]
        | c :: tail => g :: findallAux P fuel (some c) tail
    | none =>
      match s with
      | [] => []
      | c :: tail => findallAux P fuel (some c) tail

/-- The optional decimal fraction `(?:\.\d+)?`. -/
def fracOpt : RE :=
  .opt (.cat (.lit ['.']) (.plus isDigitC))

/-- The number part with optional whitespace and optional unit prefix,
`\d+(?:\.\d+)?\s*[KMGT]?`. -/
def numPart : RE :=
  .cat (.plus isDigitC)
    (.cat fracOpt (.cat (.star isSpaceC) (.opt (.cls isKMGTUnit))))

/-- The full number-with-unit token `\d+(?:\.\d+)?\s*[KMGT]?B`. -/
def numUnit : RE :=
  .cat numPart (.cls isBUnit)

/-- Pattern 1 of the source list:
`Memory\s+Limit[:\s]*(\d+(?:\.\d+)?\s*[KMGT]?B)`. -/
def pat1 : Pat :=
  ⟨.cat (.lit "Memory".data)
     (.cat (.plus isSpaceC) (.cat (.lit "Limit".data) (.star isColonSpace))),
   numUnit, .eps⟩

/-- Pattern 2 of the source list, the Japanese inline label:
`メモリ制限[:\s]*(\d+(?:\.\d+)?\s*[KMGT]?B)`. -/
def pat2 : Pat :=
  ⟨.cat (.lit "メモリ制限".data) (.star isColonSpace), numUnit, .eps⟩

/-- The capture of the English and Japanese table-row patterns,
`[^<]*[KMGT]?B[^<]*`. -/
def cellGrp : RE :=
  .cat (.star notLt)
    (.cat (.opt (.cls isKMGTUnit)) (.cat (.cls isBUnit) (.star notLt)))

/-- Pattern 3 of the source list:
`<th[^>]*>Memory\s+Limit</th>\s*<td[^>]*>([^<]*[KMGT]?B[^<]*)</td>`. -/
def pat3 : Pat :=
  ⟨.cat (.lit "<th".data)
     (.cat (.star notGt)
       (.cat (.lit ">Memory".data)
         (.cat (.plus isSpaceC)
           (.cat (.lit "Limit</th>".data)
             (.cat (.star isSpaceC)
               (.cat (.lit "<td".data)
                 (.cat (.star notGt) (.lit ">".data)))))))),
   cellGrp, .lit "</td>".data⟩

/-- Pattern 4 of the source list:
`<th[^>]*>メモリ制限</th>\s*<td[^>]*>([^<]*[KMGT]?B[^<]*)</td>`. -/
def pat4 : Pat :=
  ⟨.cat (.lit "<th".data)
     (.cat (.star notGt)
       (.cat (.lit ">メモリ制限</th>".data)
         (.cat (.star isSpaceC)
           (.cat (.lit "<td".data)
             (.cat (.star notGt) (.lit ">".data)))))),
   cellGrp, .lit "</td>".data⟩

/-- Pattern 5 of the source list:
`(\d+(?:\.\d+)?\s*[KMGT]?B)\s*memory`. -/
def pat5 : Pat :=
  ⟨.eps, numUnit, .cat (.star isSpaceC) (.lit "memory".data)⟩

/-- Pattern 6 of the source list:
`limit[^>]*>([^<]*\d+[^<]*[KMGT]?B)`. -/
def pat6 : Pat :=
  ⟨.cat (.lit "limit".data) (.cat (.star notGt) (.lit ">".data)),
   .cat (.star notLt)
     (.cat (.plus isDigitC)
       (.cat (.star notLt) (.cat (.opt (.cls isKMGTUnit)) (.cls isBUnit)))),
   .eps⟩

/-- The six labeled patterns in the priority order of the source list. -/
def labeledPatterns : List Pat :=
  [pat1, pat2, pat3, pat4, pat5, pat6]

/-- The six labeled patterns indexed by their priority. -/
def labeledPat (i : Fin 6) : Pat :=
  match i with
  | ⟨0, _⟩ => pat1
  | ⟨1, _⟩ => pat2
  | ⟨2, _⟩ => pat3
  | ⟨3, _⟩ => pat4
  | ⟨4, _⟩ => pat5
  | ⟨5, _⟩ => pat6

/-- The scan pattern of strategy 2, `\b(\d+(?:\.\d+)?\s*[KMGT]?B)\b`. -/
def scanPat : Pat :=
  ⟨.bnd, numUnit, .bnd⟩

/-- Python `str.strip()` restricted to the whitespace characters of
`isSpaceC`: drop whitespace from both ends. -/
def stripL (l : List Char) : List Char :=
  ((l.dropWhile isSpaceC).reverse.dropWhile isSpaceC).reverse

/-- Value of a digit run, used for `float()` on the matched number. -/
def digitsToNat (ds : List Char) : Nat :=
  ds.foldl (fun a c => 10 * a + (c.toNat - 48)) 0

/-- An exact nonnegative rational, kept unnormalized so that all arithmetic
is plain `Nat` arithmetic.  This models the Python floats of the source: on
every comparison the source performs, the float result and the exact
rational agree. -/
structure Frac where
  num : Nat
  den : Nat
deriving DecidableEq

/-- Order on the rationals the fractions denote, by cross multiplication. -/
def fracLe (a b : Frac) : Bool :=
  a.num * b.den ≤ b.num * a.den

/-- Equality of the rationals the fractions denote. -/
def fracEq (a b : Frac) : Bool :=
  a.num * b.den == b.num * a.den

/-- The whole number `n`. -/
def natFrac (n : Nat) : Frac :=
  ⟨n, 1⟩

/-- The rational a fraction denotes. -/
def Frac.toRat (f : Frac) : ℚ :=
  (f.num : ℚ) / (f.den : ℚ)

/-- Python `float()` on a string of the shape digits-dot-digits:
the exact value of `intDs.fracDs`. -/
def pyFloat (intDs fracDs : List Char) : Frac :=
  ⟨digitsToNat intDs * 10 ^ fracDs.length + digitsToNat fracDs,
   10 ^ fracDs.length⟩

/-- The anchored match `re.match(r'(\d+(?:\.\d+)?)\s*([KMGT]?)B', value, re.IGNORECASE)`
applied to a candidate: the parsed number and the optional unit prefix
letter exactly as it appears in the candidate. -/
def matchNumUnit (v : List Char) : Option (Frac × Option Char) :=
  let ds := v.takeWhile isDigitC
  if ds.isEmpty then none
  else
    let r1 := v.dropWhile isDigitC
    let fr : List Char × List Char :=
      match r1 with
      | '.' :: r =>
        if (r.takeWhile isDigitC).isEmpty then ([], r1)
        else (r.takeWhile isDigitC, r.dropWhile isDigitC)
      | _ => ([], r1)
    let r3 := fr.2.dropWhile isSpaceC
    match r3 with
    | u :: b :: _ =>
      if isKMGTUnit u && isBUnit b then some (pyFloat ds fr.1, some u)
      else if isBUnit u then some (pyFloat ds fr.1, none)
      else none
    | [u] => if isBUnit u then some (pyFloat ds fr.1, none) else none
    | [] => none

/-- `unit.upper()` applied to the contents of the unit capture group (a
single letter or the empty string). -/
def unitUpper (u : Option Char) : String :=
  match u with
  | some c => String.mk [c.toUpper]
  | none => ""

/-- The conversion block of the source (lines 63-70 of both files),
byte-for-byte: `mb_value = number`, then branches comparing the uppercased
single-letter unit group against the two-letter strings `KB`, `GB`, `TB`. -/
def mb_value (number : Frac) (unit : String) : Frac :=
  if unit = "KB" then ⟨number.num, number.den * 1024⟩
  else if unit = "GB" then ⟨number.num * 1024, number.den⟩
  else if unit = "TB" then ⟨number.num * 1024 * 1024, number.den⟩
  else number

/-- The plausibility filter of strategy 2 applied to one candidate:
re-match the candidate, compute `mb_value`, and keep it when
`64 <= mb_value <= 8192`. -/
def plausibleB (v : List Char) : Bool :=
  match matchNumUnit v with
  | some (n, u) =>
    fracLe (natFrac 64) (mb_value n (unitUpper u)) &&
    fracLe (mb_value n (unitUpper u)) (natFrac 8192)
  | none => false

/-- Try the labeled patterns in order; the capture of the first pattern whose
search succeeds wins. -/
def tryPatterns : List Pat → List Char → Option (List Char)
  | [], _ => none
  | P :: Ps, s =>
    match searchAux P none s with
    | some g => some g
    | none => tryPatterns Ps s

/-- Strategy 2 of the source: collect every `\b(\d+(?:\.\d+)?\s*[KMGT]?B)\b`
candidate in document order, filter by `plausibleB`, and return the first
survivor. -/
def scanCandidates (html : List Char) : Option (List Char) :=
  match (findallAux scanPat (html.length + 1) none html).filter plausibleB with
  | v :: _ => some v
  | [] => none

/-- The extractor of `atcoder_robust.py`, on character lists: the ordered
cascade of the six labeled patterns (first match wins, capture stripped),
then the plausibility-filtered scan. -/
def parseL (html : List Char) : Option (List Char) :=
  match tryPatterns labeledPatterns html with
  | some g => some (stripL g)
  | none => scanCandidates html

/-- `parse_memory_limit_from_html` of `atcoder_robust.py`. -/
def parse_memory_limit_from_html (html : String) : Option String :=
  (parseL html.data).map (fun l => String.mk l)

/-- The pattern list of `atcoder_memory_limit_patch.py` (textually identical
to the one in `atcoder_robust.py`). -/
def patchedPatterns : List Pat :=
  [pat1, pat2, pat3, pat4, pat5, pat6]

/-- The extractor of `atcoder_memory_limit_patch.py` on character lists; the
Python source of this function is textually identical to the one in
`atcoder_robust.py`. -/
def patchedParseL (html : List Char) : Option (List Char) :=
  match tryPatterns patchedPatterns html with
  | some g => some (stripL g)
  | none => scanCandidates html

/-- `_patched_parse_memory_limit_from_html` of
`atcoder_memory_limit_patch.py` (the Lean name drops the leading
underscore of the Python name). -/
def patched_parse_memory_limit_from_html (html : String) : Option String :=
  (patchedParseL html.data).map (fun l => String.mk l)

/-- Python list/string prefix test: does `l` start with `pat`
(case-sensitively, as the `in` and `replace` operators of the source do)? -/
def startsWithB : List Char → List Char → Bool
  | _, [] => true
  | [], _ :: _ => false
  | c :: t, p :: ps => c == p && startsWithB t ps

/-- Python substring test `pat in l` (case-sensitive). -/
def containsSubB : List Char → List Char → Bool
  | [], pat => startsWithB [] pat
  | c :: t, pat => startsWithB (c :: t) pat || containsSubB t pat

/-- Python `l.replace(pat, repl, 1)`: replace the leftmost occurrence of
`pat` (here always nonempty) by `repl`; unchanged when `pat` is absent. -/
def replaceFirst : List Char → List Char → List Char → List Char
  | [], _, _ => []
  | c :: t, pat, repl =>
    if startsWithB (c :: t) pat then repl ++ (c :: t).drop pat.length
    else c :: replaceFirst t pat repl

/-- The double-injection guard of the source (line 146 of
`atcoder_robust.py`, line 128 of the patch module): does the page text
already contain either label string? -/
def hasLabelL (html : List Char) : Bool :=
  containsSubB html "Memory Limit".data || containsSubB html "メモリ制限".data

/-- The synthetic table row carrying the recovered token,
`<tr><th>Memory Limit</th><td>{token}</td></tr>`. -/
def memorySection (lim : List Char) : List Char :=
  "<tr><th>Memory Limit</th><td>".data ++ lim ++ "</td></tr>".data

/-- The HTML modification step of both coordinator variants
(`atcoder_robust.py` lines 146-154, patch module lines 128-136): leave the
text alone when a label is already present; otherwise insert the synthetic
row before the first `</table>` when one exists, else prepend a fresh
table holding only the row. -/
def injectL (lim html : List Char) : List Char :=
  if hasLabelL html then html
  else if containsSubB html "</table>".data then
    replaceFirst html "</table>".data (memorySection lim ++ "</table>".data)
  else "<table>".data ++ memorySection lim ++ "</table>".data ++ html

/-- String-level wrapper of `injectL`. -/
def inject_memory_limit (lim html : String) : String :=
  String.mk (injectL lim.data html.data)

/-- The Python exceptions relevant to the coordinator: the targeted
invariant-violation signal `AssertionError`, and every other `Exception`. -/
inductive PyExc where
  | assertionError : String → PyExc
  | otherError : String → PyExc
deriving DecidableEq

/-- The value of the `session.get` attribute: either whatever function the
session started with, or the `mock_get` closure installed during the retry
(it carries the modified page text and the saved original function). -/
inductive GetFn where
  | base : GetFn
  | mock : String → GetFn → GetFn
deriving DecidableEq

/-- The externally observable behaviour of one call into the collaborator,
supplied as data: the outcome of the first `download_*_cases` invocation,
the outcome of `session.get` + `raise_for_status` (the fetched page text on
success), and the outcome of the single re-invocation under the mocked
session. -/
structure Behavior (T : Type) where
  firstCall : Except PyExc (List T)
  fetch : Except PyExc String
  retryCall : Except PyExc (List T)

/-- The `session.get = mock_get; try ... finally: session.get = original_get`
block around the retried call (`atcoder_robust.py` lines 166-179):
`session.get` holds `duringGet` while the body runs, and whatever the body
does, the session ends with its original `get`. -/
def withRestoredGet (T : Type) (duringGet : GetFn)
    (bodyOutcome : Except PyExc (List T))
    (originalGet : GetFn) : Except PyExc (List T) × GetFn :=
  match duringGet, bodyOutcome with
  | _, Except.ok r => (Except.ok r, originalGet)
  | _, Except.error e => (Except.error e, originalGet)

/-- `RobustAtCoderProblem._download_with_robust_parsing`: fetch the page
text, run the extractor, inject the token, re-invoke the download once under
the mocked session, and fall back to the empty list on any failure.  The
result also reports how many times the original download operation was
re-invoked (0 or 1) and the final value of `session.get`. -/
def download_with_robust_parsing (T : Type) (b : Behavior T) (g0 : GetFn) :
    Except PyExc (List T) × Nat × GetFn :=
  match b.fetch with
  | Except.error _ => (Except.ok [], 0, g0)
  | Except.ok html =>
    match parse_memory_limit_from_html html with
    | none => (Except.ok [], 0, g0)
    | some lim =>
      if lim = "" then (Except.ok [], 0, g0)
      else
        let mocked := GetFn.mock (inject_memory_limit lim html) g0
        let step := withRestoredGet T mocked b.retryCall g0
        match step.1 with
        | Except.ok r => (Except.ok r, 1, step.2)
        | Except.error _ => (Except.ok [], 1, step.2)

/-- `RobustAtCoderProblem.download_sample_cases`: forward the first call,
intercept exactly `AssertionError`, and run the robust path on it;
`download_system_cases` of the source is the same function with the other
case type.  The `Nat` component counts re-invocations of the original
download operation beyond the first call. -/
def download_sample_cases (T : Type) (b : Behavior T) (g0 : GetFn) :
    Except PyExc (List T) × Nat × GetFn :=
  match b.firstCall with
  | Except.ok r => (Except.ok r, 0, g0)
  | Except.error (PyExc.assertionError _) => download_with_robust_parsing T b g0
  | Except.error (PyExc.otherError m) =>
    (Except.error (PyExc.otherError m), 0, g0)

/-- `patched_from_html` of `atcoder_memory_limit_patch.py`: try the original
parser; on `AssertionError`, run the patched extractor, and when it finds a
token and the label guard passes, retry the original parser once on the
modified text; every other way out re-raises the original
`AssertionError` (the bare `raise` and the nested handler `raise e` of
lines 141-149). -/
def patched_from_html (D : Type) (first : Except PyExc D)
    (retryOn : String → Except PyExc D) (html : String) : Except PyExc D :=
  match first with
  | Except.ok d => Except.ok d
  | Except.error (PyExc.otherError m) => Except.error (PyExc.otherError m)
  | Except.error (PyExc.assertionError m) =>
    match patched_parse_memory_limit_from_html html with
    | some lim =>
      if lim ≠ "" ∧ hasLabelL html.data = false then
        match retryOn (inject_memory_limit lim html) with
        | Except.ok d => Except.ok d
        | Except.error _ => Except.error (PyExc.assertionError m)
      else Except.error (PyExc.assertionError m)
    | none => Except.error (PyExc.assertionError m)

/-- A token of the canonical shape claimed by the spec: a digit run with an
optional decimal fraction, then exactly one space, then an uppercase unit
among KB, MB, GB, TB. -/
def isCanonicalToken (s : String) : Bool :=
  let l := s.data
  let ds := l.takeWhile isDigitC
  let r1 := l.dropWhile isDigitC
  let r2 : List Char :=
    match r1 with
    | '.' :: r => if (r.takeWhile isDigitC).isEmpty then r1 else r.dropWhile isDigitC
    | _ => r1
  !ds.isEmpty &&
    (r2 == [' ', 'K', 'B'] || r2 == [' ', 'M', 'B'] ||
     r2 == [' ', 'G', 'B'] || r2 == [' ', 'T', 'B'])

/-- The megabyte-equivalent conversion as the spec states it (KB divides by
1024, MB is unchanged, GB multiplies by 1024, TB by 1024 squared), keyed by
the unit prefix letter the filter regex captures.  Stated alongside
`mb_value` to exhibit where the code diverges from it. -/
def specMegabyteEquivalent (number : Frac) (u : Option Char) : Frac :=
  match u with
  | some c =>
    if c.toUpper = 'K' then ⟨number.num, number.den * 1024⟩
    else if c.toUpper = 'G' then ⟨number.num * 1024, number.den⟩
    else if c.toUpper = 'T' then ⟨number.num * 1024 * 1024, number.den⟩
    else number
  | none => number

/-- Python `str.strip()` at string level. -/
def pyStrip (s : String) : String :=
  String.mk (stripL s.data)

/-! ### Lemmas about the substring primitives -/

theorem startsWithB_iff (pat : List Char) : ∀ l : List Char,
    startsWithB l pat = true ↔ ∃ rest, l = pat ++ rest := by
  induction pat with
  | nil =>
    intro l
    simp [startsWithB]
  | cons p ps ih =>
    intro l
    cases l with
    | nil => simp [startsWithB]
    | cons c t =>
      simp only [startsWithB, Bool.and_eq_true, beq_iff_eq, ih t]
      constructor
      · rintro ⟨rfl, rest, rfl⟩
        exact ⟨rest, rfl⟩
      · rintro ⟨rest, h⟩
        rw [List.cons_append] at h
        injection h with h1 h2
        exact ⟨h1, rest, h2⟩

theorem startsWithB_append (pat rest : List Char) :
    startsWithB (pat ++ rest) pat = true :=
  (startsWithB_iff pat _).mpr ⟨rest, rfl⟩

theorem containsSubB_of_startsWithB (l pat : List Char)
    (h : startsWithB l pat = true) : containsSubB l pat = true := by
  cases l with
  | nil => simpa [containsSubB] using h
  | cons c t => simp [containsSubB, h]

theorem containsSubB_cons (c : Char) (t pat : List Char)
    (h : containsSubB t pat = true) : containsSubB (c :: t) pat = true := by
  simp [containsSubB, h]

theorem containsSubB_append_left (pat : List Char) : ∀ a b : List Char,
    containsSubB a pat = true → containsSubB (a ++ b) pat = true := by
  intro a
  induction a with
  | nil =>
    intro b h
    cases pat with
    | nil =>
      apply containsSubB_of_startsWithB
      simp [startsWithB_iff]
    | cons p ps => simp [containsSubB, startsWithB] at h
  | cons c t ih =>
    intro b h
    rw [containsSubB, Bool.or_eq_true] at h
    rcases h with h | h
    · obtain ⟨rest, hrest⟩ := (startsWithB_iff pat _).mp h
      apply containsSubB_of_startsWithB
      rw [hrest]
      exact (startsWithB_iff pat _).mpr ⟨rest ++ b, by simp⟩
    · exact containsSubB_cons c _ pat (ih b h)

theorem containsSubB_append_right (pat b : List Char) : ∀ a : List Char,
    containsSubB b pat = true → containsSubB (a ++ b) pat = true := by
  intro a
  induction a with
  | nil => intro h; simpa using h
  | cons c t ih => intro h; exact containsSubB_cons c _ pat (ih h)

theorem startsWithB_take_of_le (pat : List Char) : ∀ X Y : List Char,
    startsWithB (X ++ Y) pat = true → pat.length ≤ X.length →
    startsWithB X pat = true := by
  induction pat with
  | nil => intro X Y _ _; simp [startsWithB_iff]
  | cons p ps ih =>
    intro X Y h hlen
    cases X with
    | nil => simp at hlen
    | cons x xs =>
      rw [List.cons_append, startsWithB, Bool.and_eq_true] at h
      rw [startsWithB, Bool.and_eq_true]
      exact ⟨h.1, ih xs Y h.2 (by simpa using hlen)⟩

theorem drop_append_self (l₁ l₂ : List Char) :
    List.drop l₁.length (l₁ ++ l₂) = l₂ :=
  List.drop_left l₁ l₂

theorem replaceFirst_of_contains (pat repl : List Char) (hne : 0 < pat.length) :
    ∀ hay : List Char, containsSubB hay pat = true →
    ∃ pre post, replaceFirst hay pat repl = pre ++ repl ++ post := by
  intro hay
  induction hay with
  | nil =>
    intro h
    cases pat with
    | nil => simp at hne
    | cons p ps => simp [containsSubB, startsWithB] at h
  | cons c t ih =>
    intro h
    by_cases hs : startsWithB (c :: t) pat = true
    · refine ⟨[], List.drop pat.length (c :: t), ?_⟩
      rw [replaceFirst, if_pos hs]
      simp
    · rw [containsSubB, Bool.or_eq_true] at h
      rcases h with h | h
      · exact absurd h hs
      · obtain ⟨pre, post, hpp⟩ := ih h
        refine ⟨c :: pre, post, ?_⟩
        rw [replaceFirst, if_neg hs, hpp]
        simp

theorem replaceFirst_leftmost (pat repl post : List Char) (hne : pat ≠ []) :
    ∀ pre : List Char, containsSubB (pre ++ pat.dropLast) pat = false →
    replaceFirst (pre ++ pat ++ post) pat repl = pre ++ repl ++ post := by
  intro pre
  induction pre with
  | nil =>
    intro _
    cases hp : pat with
    | nil => exact absurd hp hne
    | cons p ps =>
      rw [← hp]
      simp only [List.nil_append]
      have hs : startsWithB (pat ++ post) pat = true := startsWithB_append pat post
      have hcons : pat ++ post = p :: (ps ++ post) := by rw [hp]; simp
      rw [hcons] at hs ⊢
      rw [replaceFirst, if_pos hs, ← hcons, drop_append_self]
  | cons c pr ih =>
    intro hmin
    have hmin1 : containsSubB (c :: (pr ++ pat.dropLast)) pat = false := by
      simpa using hmin
    have hmin2 : containsSubB (pr ++ pat.dropLast) pat = false := by
      have h1 := hmin1
      simp only [containsSubB, Bool.or_eq_false_iff] at h1
      exact h1.2
    have hs : startsWithB (c :: (pr ++ (pat ++ post))) pat = false := by
      by_contra hcon
      rw [Bool.not_eq_false] at hcon
      have hsplit : c :: (pr ++ (pat ++ post)) =
          (c :: (pr ++ pat.dropLast)) ++ ([pat.getLast hne] ++ post) := by
        conv_lhs => rw [← List.dropLast_append_getLast hne]
        simp
      rw [hsplit] at hcon
      have hlen : pat.length ≤ (c :: (pr ++ pat.dropLast)).length := by
        have hp : 0 < pat.length := List.length_pos.mpr hne
        simp [List.length_dropLast]
        omega
      have hsw := startsWithB_take_of_le pat _ _ hcon hlen
      have hcontains := containsSubB_of_startsWithB _ _ hsw
      rw [hmin1] at hcontains
      exact absurd hcontains (by decide)
    have hform : (c :: pr) ++ pat ++ post = c :: (pr ++ (pat ++ post)) := by simp
    rw [hform, replaceFirst, if_neg (by simp [hs])]
    have hrec : pr ++ (pat ++ post) = pr ++ pat ++ post := by simp
    rw [hrec, ih hmin2]
    simp

/-! ### Lemmas about the synthetic-fragment injection -/

theorem memorySection_contains_label (lim : List Char) :
    containsSubB (memorySection lim) "Memory Limit".data = true := by
  unfold memorySection
  rw [List.append_assoc]
  apply containsSubB_append_left
  decide

theorem injectL_of_label (lim html : List Char) (h : hasLabelL html = true) :
    injectL lim html = html := by
  unfold injectL
  rw [h]
  simp

theorem injectL_gains_label (lim html : List Char) :
    hasLabelL (injectL lim html) = true ∨ injectL lim html = html := by
  by_cases h : hasLabelL html = true
  · right
    exact injectL_of_label lim html h
  · left
    rw [Bool.not_eq_true] at h
    unfold injectL
    rw [h]
    simp only [Bool.false_eq_true, if_false]
    by_cases ht : containsSubB html "</table>".data = true
    · rw [if_pos ht]
      obtain ⟨pre, post, hpp⟩ :=
        replaceFirst_of_contains "</table>".data
          (memorySection lim ++ "</table>".data) (by decide) html ht
      rw [hpp]
      unfold hasLabelL
      have h1 : containsSubB
          (memorySection lim ++ "</table>".data) "Memory Limit".data = true :=
        containsSubB_append_left _ _ _ (memorySection_contains_label lim)
      have h2 : containsSubB
          (pre ++ (memorySection lim ++ "</table>".data) ++ post)
          "Memory Limit".data = true := by
        rw [List.append_assoc pre]
        apply containsSubB_append_right
        exact containsSubB_append_left _ _ _ h1
      rw [h2]
      simp
    · rw [if_neg ht]
      unfold hasLabelL
      have h1 : containsSubB
          ("<table>".data ++ memorySection lim ++ "</table>".data ++ html)
          "Memory Limit".data = true := by
        rw [List.append_assoc, List.append_assoc]
        apply containsSubB_append_right
        rw [← List.append_assoc]
        apply containsSubB_append_left
        apply containsSubB_append_left
        exact memorySection_contains_label lim
      rw [h1]
      simp

theorem injectL_idem (lim html : List Char) :
    injectL lim (injectL lim html) = injectL lim html := by
  rcases injectL_gains_label lim html with h | h
  · exact injectL_of_label lim _ h
  · rw [h]
    rcases injectL_gains_label lim html with h2 | h2
    · rw [h] at h2
      exact injectL_of_label lim _ h2
    · rw [h2] at h
      rw [h2]

/-! ### Character class facts -/

theorem isSpaceC_cases (c : Char) (h : isSpaceC c = true) :
    c = ' ' ∨ c = '\t' ∨ c = '\n' ∨ c = '\r' ∨
    c = Char.ofNat 11 ∨ c = Char.ofNat 12 := by
  unfold isSpaceC at h
  simp only [Bool.or_eq_true, beq_iff_eq] at h
  tauto

theorem isDigitC_not_space (c : Char) (h : isDigitC c = true) :
    isSpaceC c = false := by
  by_contra hs
  rw [Bool.not_eq_false] at hs
  rcases isSpaceC_cases c hs with rfl | rfl | rfl | rfl | rfl | rfl <;>
    exact absurd h (by decide)

theorem isBUnit_not_space (c : Char) (h : isBUnit c = true) :
    isSpaceC c = false := by
  by_contra hs
  rw [Bool.not_eq_false] at hs
  rcases isSpaceC_cases c hs with rfl | rfl | rfl | rfl | rfl | rfl <;>
    exact absurd h (by decide)

/-! ### Lemmas about stripping -/

theorem dropWhile_head_not (p : Char → Bool) : ∀ (l : List Char) (c : Char)
    (t : List Char), l.dropWhile p = c :: t → p c = false := by
  intro l
  induction l with
  | nil => intro c t h; simp at h
  | cons a l2 ih =>
    intro c t h
    rw [List.dropWhile_cons] at h
    by_cases hp : p a = true
    · rw [if_pos (by simp [hp])] at h
      exact ih c t h
    · rw [if_neg (by simp [hp])] at h
      injection h with h1 _
      rw [← h1]
      simpa using hp

theorem stripL_eq_self (l : List Char)
    (h1 : ∀ c, l.head? = some c → isSpaceC c = false)
    (h2 : ∀ c, l.getLast? = some c → isSpaceC c = false) :
    stripL l = l := by
  cases l with
  | nil => rfl
  | cons a t =>
    have ha : isSpaceC a = false := h1 a rfl
    unfold stripL
    rw [List.dropWhile_cons, if_neg (by simp [ha])]
    cases hr : (a :: t).reverse with
    | nil => exact absurd hr (by simp)
    | cons b m =>
      have hb : (a :: t).getLast? = some b := by
        rw [← List.head?_reverse, hr]
        rfl
      have hbs : isSpaceC b = false := h2 b hb
      rw [List.dropWhile_cons, if_neg (by simp [hbs]), ← hr,
        List.reverse_reverse]

theorem stripL_idem (l : List Char) : stripL (stripL l) = stripL l := by
  apply stripL_eq_self
  · intro c hc
    unfold stripL at hc
    rw [List.head?_reverse] at hc
    obtain ⟨w, hw⟩ := List.dropWhile_suffix
      (l := (l.dropWhile isSpaceC).reverse) isSpaceC
    have hYne : (l.dropWhile isSpaceC).reverse.dropWhile isSpaceC ≠ [] := by
      intro h0
      rw [h0] at hc
      simp at hc
    have hlast : (l.dropWhile isSpaceC).reverse.getLast? = some c := by
      rw [← hw, List.getLast?_append_of_ne_nil w hYne, hc]
    rw [List.getLast?_reverse] at hlast
    cases hx : l.dropWhile isSpaceC with
    | nil => rw [hx] at hlast; simp at hlast
    | cons d t =>
      rw [hx] at hlast
      simp at hlast
      rw [← hlast]
      exact dropWhile_head_not isSpaceC l d t hx
  · intro c hc
    unfold stripL at hc
    rw [List.getLast?_reverse] at hc
    cases hy : (l.dropWhile isSpaceC).reverse.dropWhile isSpaceC with
    | nil => rw [hy] at hc; simp at hc
    | cons d t =>
      rw [hy] at hc
      simp at hc
      rw [← hc]
      exact dropWhile_head_not isSpaceC _ d t hy

/-! ### The matcher consumes a prefix: suffix lemmas -/

theorem starM_suffix {α : Type} (p : Char → Bool) : ∀ (s : List Char)
    (prev : Option Char) (k : Option Char → List Char → Option α) (v : α),
    starM p prev s k = some v → ∃ p2 s2, s2 <:+ s ∧ k p2 s2 = some v := by
  intro s
  induction s with
  | nil =>
    intro prev k v h
    rw [starM] at h
    exact ⟨prev, [], List.suffix_rfl, h⟩
  | cons c rest ih =>
    intro prev k v h
    rw [starM] at h
    by_cases hp : p c = true
    · rw [if_pos hp] at h
      cases hsm : starM p (some c) rest k with
      | some w =>
        rw [hsm, Option.some_orElse] at h
        obtain ⟨p2, s2, hsuf, hk⟩ := ih (some c) k w hsm
        exact ⟨p2, s2, hsuf.trans (List.suffix_cons c rest), by rw [hk]; exact h⟩
      | none =>
        rw [hsm, Option.none_orElse] at h
        exact ⟨prev, c :: rest, List.suffix_rfl, h⟩
    · rw [if_neg hp] at h
      exact ⟨prev, c :: rest, List.suffix_rfl, h⟩

theorem litM_suffix {α : Type} : ∀ (cs : List Char) (prev : Option Char)
    (s : List Char) (k : Option Char → List Char → Option α) (v : α),
    litM cs prev s k = some v → ∃ p2 s2, s2 <:+ s ∧ k p2 s2 = some v := by
  intro cs
  induction cs with
  | nil =>
    intro prev s k v h
    simp only [litM] at h
    exact ⟨prev, s, List.suffix_rfl, h⟩
  | cons c cs2 ih =>
    intro prev s k v h
    cases s with
    | nil => simp [litM] at h
    | cons x xs =>
      simp only [litM] at h
      by_cases hc : charEqCI c x = true
      · rw [if_pos hc] at h
        obtain ⟨p2, s2, hsuf, hk⟩ := ih (some x) xs k v h
        exact ⟨p2, s2, hsuf.trans (List.suffix_cons x xs), hk⟩
      · rw [if_neg hc] at h
        exact absurd h (by simp)

theorem mAt_eps {α : Type} (prev : Option Char) (s : List Char)
    (k : Option Char → List Char → Option α) : mAt .eps prev s k = k prev s :=
  rfl

theorem mAt_lit {α : Type} (cs : List Char) (prev : Option Char)
    (s : List Char) (k : Option Char → List Char → Option α) :
    mAt (.lit cs) prev s k = litM cs prev s k :=
  rfl

theorem mAt_cls_nil {α : Type} (p : Char → Bool) (prev : Option Char)
    (k : Option Char → List Char → Option α) :
    mAt (.cls p) prev [] k = none :=
  rfl

theorem mAt_cls_cons {α : Type} (p : Char → Bool) (prev : Option Char)
    (c : Char) (rest : List Char) (k : Option Char → List Char → Option α) :
    mAt (.cls p) prev (c :: rest) k = if p c then k (some c) rest else none :=
  rfl

theorem mAt_star {α : Type} (p : Char → Bool) (prev : Option Char)
    (s : List Char) (k : Option Char → List Char → Option α) :
    mAt (.star p) prev s k = starM p prev s k :=
  rfl

theorem mAt_plus_nil {α : Type} (p : Char → Bool) (prev : Option Char)
    (k : Option Char → List Char → Option α) :
    mAt (.plus p) prev [] k = none :=
  rfl

theorem mAt_plus_cons {α : Type} (p : Char → Bool) (prev : Option Char)
    (c : Char) (rest : List Char) (k : Option Char → List Char → Option α) :
    mAt (.plus p) prev (c :: rest) k =
      if p c then starM p (some c) rest k else none :=
  rfl

theorem mAt_opt {α : Type} (r : RE) (prev : Option Char) (s : List Char)
    (k : Option Char → List Char → Option α) :
    mAt (.opt r) prev s k = ((mAt r prev s k) <|> k prev s) :=
  rfl

theorem mAt_cat {α : Type} (r1 r2 : RE) (prev : Option Char) (s : List Char)
    (k : Option Char → List Char → Option α) :
    mAt (.cat r1 r2) prev s k = mAt r1 prev s (fun p2 s2 => mAt r2 p2 s2 k) :=
  rfl

theorem mAt_bnd {α : Type} (prev : Option Char) (s : List Char)
    (k : Option Char → List Char → Option α) :
    mAt (.bnd) prev s k =
      if prevWord prev != headWord s then k prev s else none :=
  rfl

theorem mAt_suffix {α : Type} : ∀ (r : RE) (prev : Option Char) (s : List Char)
    (k : Option Char → List Char → Option α) (v : α),
    mAt r prev s k = some v → ∃ p2 s2, s2 <:+ s ∧ k p2 s2 = some v := by
  intro r
  induction r with
  | eps =>
    intro prev s k v h
    rw [mAt_eps] at h
    exact ⟨prev, s, List.suffix_rfl, h⟩
  | lit cs =>
    intro prev s k v h
    rw [mAt_lit] at h
    exact litM_suffix cs prev s k v h
  | cls p =>
    intro prev s k v h
    cases s with
    | nil =>
      rw [mAt_cls_nil] at h
      exact absurd h (by simp)
    | cons c rest =>
      rw [mAt_cls_cons] at h
      by_cases hp : p c = true
      · rw [if_pos hp] at h
        exact ⟨some c, rest, List.suffix_cons c rest, h⟩
      · rw [if_neg hp] at h
        exact absurd h (by simp)
  | star p =>
    intro prev s k v h
    rw [mAt_star] at h
    exact starM_suffix p s prev k v h
  | plus p =>
    intro prev s k v h
    cases s with
    | nil =>
      rw [mAt_plus_nil] at h
      exact absurd h (by simp)
    | cons c rest =>
      rw [mAt_plus_cons] at h
      by_cases hp : p c = true
      · rw [if_pos hp] at h
        obtain ⟨p2, s2, hsuf, hk⟩ := starM_suffix p rest (some c) k v h
        exact ⟨p2, s2, hsuf.trans (List.suffix_cons c rest), hk⟩
      · rw [if_neg hp] at h
        exact absurd h (by simp)
  | opt r ihr =>
    intro prev s k v h
    rw [mAt_opt] at h
    cases hm : mAt r prev s k with
    | some w =>
      rw [hm, Option.some_orElse] at h
      obtain ⟨p2, s2, hsuf, hk⟩ := ihr prev s k w hm
      exact ⟨p2, s2, hsuf, by rw [hk]; exact h⟩
    | none =>
      rw [hm, Option.none_orElse] at h
      exact ⟨prev, s, List.suffix_rfl, h⟩
  | cat r1 r2 ih1 ih2 =>
    intro prev s k v h
    rw [mAt_cat] at h
    obtain ⟨pa, sa, hsufa, hka⟩ := ih1 prev s _ v h
    obtain ⟨pb, sb, hsufb, hkb⟩ := ih2 pa sa k v hka
    exact ⟨pb, sb, hsufb.trans hsufa, hkb⟩
  | bnd =>
    intro prev s k v h
    rw [mAt_bnd] at h
    by_cases hb : (prevWord prev != headWord s) = true
    · rw [if_pos hb] at h
      exact ⟨prev, s, List.suffix_rfl, h⟩
    · rw [if_neg hb] at h
      exact absurd h (by simp)

/-! ### Shape of the tokens produced by the scan -/

theorem findallAux_zero (P : Pat) (prev : Option Char) (s : List Char) :
    findallAux P 0 prev s = [] :=
  rfl

theorem findallAux_succ (P : Pat) (fuel : Nat) (prev : Option Char)
    (s : List Char) :
    findallAux P (fuel + 1) prev s =
      match matchPatAt P prev s with
      | some (g, p2, rest) =>
        if rest.length < s.length then g :: findallAux P fuel p2 rest
        else
          match s with
          | [] => [g]
          | c :: tail => g :: findallAux P fuel (some c) tail
      | none =>
        match s with
        | [] => []
        | c :: tail => findallAux P fuel (some c) tail :=
  rfl

theorem mAt_numPart_head {α : Type} (prev : Option Char) (s : List Char)
    (k : Option Char → List Char → Option α) (v : α)
    (h : mAt numPart prev s k = some v) :
    ∃ c t, s = c :: t ∧ isDigitC c = true := by
  unfold numPart at h
  rw [mAt_cat] at h
  cases s with
  | nil =>
    rw [mAt_plus_nil] at h
    exact absurd h (by simp)
  | cons c t =>
    rw [mAt_plus_cons] at h
    by_cases hc : isDigitC c = true
    · exact ⟨c, t, rfl, hc⟩
    · rw [if_neg hc] at h
      exact absurd h (by simp)

theorem matchPatAt_scan_shape (prev : Option Char) (s g : List Char)
    (p2 : Option Char) (rest : List Char)
    (h : matchPatAt scanPat prev s = some (g, p2, rest)) :
    (∃ c t, g = c :: t ∧ isDigitC c = true) ∧
    (∃ mid b, g = mid ++ [b] ∧ isBUnit b = true) := by
  unfold matchPatAt scanPat at h
  rw [mAt_bnd] at h
  by_cases hb : (prevWord prev != headWord s) = true
  case neg =>
    rw [if_neg hb] at h
    exact absurd h (by simp)
  rw [if_pos hb] at h
  unfold numUnit at h
  rw [mAt_cat] at h
  have hhead := mAt_numPart_head prev s _ _ h
  obtain ⟨pa, sa, hsufa, hka⟩ := mAt_suffix numPart prev s _ _ h
  simp only at hka
  cases sa with
  | nil =>
    rw [mAt_cls_nil] at hka
    exact absurd hka (by simp)
  | cons b s2 =>
    rw [mAt_cls_cons] at hka
    by_cases hbu : isBUnit b = true
    case neg =>
      rw [if_neg hbu] at hka
      exact absurd hka (by simp)
    rw [if_pos hbu] at hka
    rw [mAt_bnd] at hka
    by_cases hb2 : (prevWord (some b) != headWord s2) = true
    case neg =>
      rw [if_neg hb2] at hka
      exact absurd hka (by simp)
    rw [if_pos hb2] at hka
    injection hka with htrip
    simp only [Prod.mk.injEq] at htrip
    obtain ⟨hg, _, hrest⟩ := htrip
    obtain ⟨mid, hmid⟩ := hsufa
    have hlen2 : s.length - s2.length = mid.length + 1 := by
      rw [← hmid]
      simp only [List.length_append, List.length_cons]
      omega
    have hg2 : g = mid ++ [b] := by
      rw [← hg, hlen2, ← hmid, List.take_append]
      simp
    obtain ⟨c, t, hst, hdig⟩ := hhead
    have hg1 : g = c :: List.take mid.length t := by
      rw [← hg, hlen2, hst, List.take_succ_cons]
    exact ⟨⟨c, _, hg1, hdig⟩, ⟨mid, b, hg2, hbu⟩⟩

theorem findall_scan_shape : ∀ (fuel : Nat) (prev : Option Char)
    (s v : List Char), v ∈ findallAux scanPat fuel prev s →
    (∃ c t, v = c :: t ∧ isDigitC c = true) ∧
    (∃ mid b, v = mid ++ [b] ∧ isBUnit b = true) := by
  intro fuel
  induction fuel with
  | zero =>
    intro prev s v h
    rw [findallAux_zero] at h
    simp at h
  | succ fuel ih =>
    intro prev s v h
    rw [findallAux_succ] at h
    split at h
    next g p2 rest heq =>
      split at h
      next hlt =>
        rcases List.mem_cons.mp h with hv | hv
        · subst hv
          exact matchPatAt_scan_shape _ _ _ _ _ heq
        · exact ih p2 rest v hv
      next hlt =>
        split at h
        next =>
          have hv : v = g := by simpa using h
          subst hv
          exact matchPatAt_scan_shape _ _ _ _ _ heq
        next c tail =>
          rcases List.mem_cons.mp h with hv | hv
          · subst hv
            exact matchPatAt_scan_shape _ _ _ _ _ heq
          · exact ih (some c) tail v hv
    next heq =>
      split at h
      next => simp at h
      next c tail => exact ih (some c) tail v h

theorem scan_result_strip (v : List Char)
    (h1 : ∃ c t, v = c :: t ∧ isDigitC c = true)
    (h2 : ∃ mid b, v = mid ++ [b] ∧ isBUnit b = true) :
    stripL v = v := by
  obtain ⟨c, t, hv, hc⟩ := h1
  obtain ⟨mid, b, hvb, hb⟩ := h2
  apply stripL_eq_self
  · intro d hd
    rw [hv] at hd
    simp only [List.head?_cons, Option.some.injEq] at hd
    rw [← hd]
    exact isDigitC_not_space c hc
  · intro d hd
    rw [hvb, List.getLast?_concat] at hd
    simp only [Option.some.injEq] at hd
    rw [← hd]
    exact isBUnit_not_space b hb

theorem parseL_strip (html l : List Char) (h : parseL html = some l) :
    stripL l = l := by
  unfold parseL at h
  split at h
  next g hg =>
    injection h with h2
    rw [← h2]
    exact stripL_idem g
  next hg =>
    unfold scanCandidates at h
    split at h
    next v vs hc =>
      injection h with h2
      rw [← h2]
      have hv : v ∈ (findallAux scanPat (html.length + 1) none html).filter
          plausibleB := by
        rw [hc]
        exact List.mem_cons_self v vs
      have hv2 := List.mem_of_mem_filter hv
      have hsh := findall_scan_shape (html.length + 1) none html v hv2
      exact scan_result_strip v hsh.1 hsh.2
    next hc =>
      exact absurd h (by simp)

/-! ### Unfolding lemmas for the cascade -/

theorem tryPatterns_nil (s : List Char) : tryPatterns [] s = none :=
  rfl

theorem tryPatterns_cons (P : Pat) (Ps : List Pat) (s : List Char) :
    tryPatterns (P :: Ps) s =
      match searchAux P none s with
      | some g => some g
      | none => tryPatterns Ps s :=
  rfl

theorem tryPatterns_cons_some (P : Pat) (Ps : List Pat) (s g : List Char)
    (h : searchAux P none s = some g) : tryPatterns (P :: Ps) s = some g := by
  rw [tryPatterns_cons, h]

theorem tryPatterns_cons_none (P : Pat) (Ps : List Pat) (s : List Char)
    (h : searchAux P none s = none) :
    tryPatterns (P :: Ps) s = tryPatterns Ps s := by
  rw [tryPatterns_cons, h]

theorem parseL_label (html g : List Char)
    (h : tryPatterns labeledPatterns html = some g) :
    parseL html = some (stripL g) := by
  unfold parseL
  rw [h]

theorem parseL_scan (html : List Char)
    (h : tryPatterns labeledPatterns html = none) :
    parseL html = scanCandidates html := by
  unfold parseL
  rw [h]

/-! ### Claim theorems -/

/-- C1: the extractor tries exactly the six labeled patterns in the fixed
priority order `pat1` to `pat6`, each searched case-insensitively over the
whole input; the first pattern whose search succeeds wins and its capture is
returned stripped of surrounding whitespace, independently of any
plausibility consideration; the plausibility-filtered scan runs only when
all six labeled searches fail. -/
theorem c1_labeled_cascade (html : String) (g : List Char) :
    (searchAux pat1 none html.data = some g →
      parse_memory_limit_from_html html = some (String.mk (stripL g))) ∧
    (searchAux pat1 none html.data = none →
      searchAux pat2 none html.data = some g →
      parse_memory_limit_from_html html = some (String.mk (stripL g))) ∧
    (searchAux pat1 none html.data = none →
      searchAux pat2 none html.data = none →
      searchAux pat3 none html.data = some g →
      parse_memory_limit_from_html html = some (String.mk (stripL g))) ∧
    (searchAux pat1 none html.data = none →
      searchAux pat2 none html.data = none →
      searchAux pat3 none html.data = none →
      searchAux pat4 none html.data = some g →
      parse_memory_limit_from_html html = some (String.mk (stripL g))) ∧
    (searchAux pat1 none html.data = none →
      searchAux pat2 none html.data = none →
      searchAux pat3 none html.data = none →
      searchAux pat4 none html.data = none →
      searchAux pat5 none html.data = some g →
      parse_memory_limit_from_html html = some (String.mk (stripL g))) ∧
    (searchAux pat1 none html.data = none →
      searchAux pat2 none html.data = none →
      searchAux pat3 none html.data = none →
      searchAux pat4 none html.data = none →
      searchAux pat5 none html.data = none →
      searchAux pat6 none html.data = some g →
      parse_memory_limit_from_html html = some (String.mk (stripL g))) ∧
    (searchAux pat1 none html.data = none →
      searchAux pat2 none html.data = none →
      searchAux pat3 none html.data = none →
      searchAux pat4 none html.data = none →
      searchAux pat5 none html.data = none →
      searchAux pat6 none html.data = none →
      parse_memory_limit_from_html html =
        (scanCandidates html.data).map (fun l => String.mk l)) := by
  refine ⟨?_, ?_, ?_, ?_, ?_, ?_, ?_⟩
  · intro h1
    have ht : tryPatterns labeledPatterns html.data = some g := by
      unfold labeledPatterns
      rw [tryPatterns_cons_some _ _ _ _ h1]
    unfold parse_memory_limit_from_html
    rw [parseL_label _ _ ht]
    rfl
  · intro h1 h2
    have ht : tryPatterns labeledPatterns html.data = some g := by
      unfold labeledPatterns
      rw [tryPatterns_cons_none _ _ _ h1, tryPatterns_cons_some _ _ _ _ h2]
    unfold parse_memory_limit_from_html
    rw [parseL_label _ _ ht]
    rfl
  · intro h1 h2 h3
    have ht : tryPatterns labeledPatterns html.data = some g := by
      unfold labeledPatterns
      rw [tryPatterns_cons_none _ _ _ h1, tryPatterns_cons_none _ _ _ h2,
        tryPatterns_cons_some _ _ _ _ h3]
    unfold parse_memory_limit_from_html
    rw [parseL_label _ _ ht]
    rfl
  · intro h1 h2 h3 h4
    have ht : tryPatterns labeledPatterns html.data = some g := by
      unfold labeledPatterns
      rw [tryPatterns_cons_none _ _ _ h1, tryPatterns_cons_none _ _ _ h2,
        tryPatterns_cons_none _ _ _ h3, tryPatterns_cons_some _ _ _ _ h4]
    unfold parse_memory_limit_from_html
    rw [parseL_label _ _ ht]
    rfl
  · intro h1 h2 h3 h4 h5
    have ht : tryPatterns labeledPatterns html.data = some g := by
      unfold labeledPatterns
      rw [tryPatterns_cons_none _ _ _ h1, tryPatterns_cons_none _ _ _ h2,
        tryPatterns_cons_none _ _ _ h3, tryPatterns_cons_none _ _ _ h4,
        tryPatterns_cons_some _ _ _ _ h5]
    unfold parse_memory_limit_from_html
    rw [parseL_label _ _ ht]
    rfl
  · intro h1 h2 h3 h4 h5 h6
    have ht : tryPatterns labeledPatterns html.data = some g := by
      unfold labeledPatterns
      rw [tryPatterns_cons_none _ _ _ h1, tryPatterns_cons_none _ _ _ h2,
        tryPatterns_cons_none _ _ _ h3, tryPatterns_cons_none _ _ _ h4,
        tryPatterns_cons_none _ _ _ h5, tryPatterns_cons_some _ _ _ _ h6]
    unfold parse_memory_limit_from_html
    rw [parseL_label _ _ ht]
    rfl
  · intro h1 h2 h3 h4 h5 h6
    have ht : tryPatterns labeledPatterns html.data = none := by
      unfold labeledPatterns
      rw [tryPatterns_cons_none _ _ _ h1, tryPatterns_cons_none _ _ _ h2,
        tryPatterns_cons_none _ _ _ h3, tryPatterns_cons_none _ _ _ h4,
        tryPatterns_cons_none _ _ _ h5, tryPatterns_cons_none _ _ _ h6,
        tryPatterns_nil]
    unfold parse_memory_limit_from_html
    rw [parseL_scan _ ht]

/-- C1 witness: the English inline label matches `Memory Limit: 1 TB` and
the token `1 TB` is returned although one terabyte lies far outside the
plausibility window; and on input with no label at all the result is the
plausibility scan. -/
theorem c1_labeled_cascade_witness :
    parse_memory_limit_from_html "Memory Limit: 1 TB" = some "1 TB" ∧
    parse_memory_limit_from_html "just 1024 MB here" =
      ((scanCandidates "just 1024 MB here".data).map (fun l => String.mk l)) := by
  constructor
  · have h := (c1_labeled_cascade "Memory Limit: 1 TB" ("1 TB".data)).1
      (by decide)
    exact h.trans (by decide)
  · exact (c1_labeled_cascade "just 1024 MB here" []).2.2.2.2.2.2
      (by decide) (by decide) (by decide) (by decide) (by decide) (by decide)

/-- C2 (code bug): the conversion block of the plausibility scan is dead.
The filter regex captures the unit prefix as a single letter, but the code
compares its uppercased value against the two-letter strings `KB`, `GB`,
`TB`, so `mb_value` always returns the bare number.  Consequently
`stack 512 KB` is accepted (the spec conversion gives 1/2 MB, outside
[64, 8192], so the claim demands rejection) and `hello 2 GB world` is
rejected (the spec conversion gives 2048 MB, inside the window, so the
claim demands `2 GB`). -/
theorem c2_conversion_dead_eval :
    parse_memory_limit_from_html "stack 512 KB" = some "512 KB" ∧
    parse_memory_limit_from_html "hello 2 GB world" = none ∧
    fracEq (specMegabyteEquivalent (natFrac 512) (some 'K')) ⟨512, 1024⟩ =
      true ∧
    fracLe (natFrac 64) (specMegabyteEquivalent (natFrac 512) (some 'K')) =
      false ∧
    fracEq (specMegabyteEquivalent (natFrac 2) (some 'G')) (natFrac 2048) =
      true ∧
    (fracLe (natFrac 64) (specMegabyteEquivalent (natFrac 2) (some 'G')) &&
      fracLe (specMegabyteEquivalent (natFrac 2) (some 'G'))
        (natFrac 8192)) = true ∧
    mb_value (natFrac 512) (unitUpper (some 'K')) = natFrac 512 ∧
    mb_value (natFrac 2) (unitUpper (some 'G')) = natFrac 2 := by
  decide

/-- C3 counterexample: the extractor does not canonicalize the token.  The
unit keeps the letter case of the input (`256 mb` stays lowercase) and the
spacing of the input (`256MB` keeps no space), so the returned token is not
of the claimed shape number-space-uppercase-unit. -/
theorem c3_not_canonical_counterexample :
    parse_memory_limit_from_html "Memory Limit: 256 mb" = some "256 mb" ∧
    isCanonicalToken "256 mb" = false ∧
    parse_memory_limit_from_html "Memory Limit:256MB" = some "256MB" ∧
    isCanonicalToken "256MB" = false := by
  decide

/-- C3 (amended): for every input on which the extractor succeeds, the
returned token carries no leading or trailing whitespace (labeled captures
are stripped, scan candidates start with a digit and end with a unit
letter), but the interior spacing and the letter case of the unit are
preserved exactly as they appear in the input; no canonicalization to
uppercase or single spacing takes place. -/
theorem c3_trim_only (html r : String)
    (h : parse_memory_limit_from_html html = some r) : pyStrip r = r := by
  unfold parse_memory_limit_from_html at h
  rw [Option.map_eq_some'] at h
  obtain ⟨l, hl, hr⟩ := h
  unfold pyStrip
  rw [← hr]
  show String.mk (stripL l) = String.mk l
  rw [parseL_strip html.data l hl]

/-- C3 witness: the amended theorem evaluated on the lowercase token. -/
theorem c3_trim_only_witness : pyStrip "256 mb" = "256 mb" :=
  c3_trim_only "Memory Limit: 256 mb" "256 mb" (by decide)

/-- C4: the extractor is a total function: on every input it returns either
a token or `none` (the embedding returns an `Option` and is defined by
structural recursion, so it cannot raise), and on the empty string it
returns `none`. -/
theorem c4_total_extractor :
    (∀ html : String, parse_memory_limit_from_html html = none ∨
      ∃ t : String, parse_memory_limit_from_html html = some t) ∧
    parse_memory_limit_from_html "" = none := by
  constructor
  · intro html
    cases h : parse_memory_limit_from_html html with
    | none => exact Or.inl rfl
    | some t => exact Or.inr ⟨t, rfl⟩
  · decide

/-- C5: the wrapper retries only on the targeted `AssertionError`: any other
exception from the first invocation propagates unchanged with no retry, and
the original download operation is re-invoked at most once (the retry
counter of the model never exceeds 1). -/
theorem c5_retry_policy (T : Type) (b : Behavior T) (g0 : GetFn) :
    (download_sample_cases T b g0).2.1 ≤ 1 ∧
    (∀ m : String, b.firstCall = Except.error (PyExc.otherError m) →
      download_sample_cases T b g0 =
        (Except.error (PyExc.otherError m), 0, g0)) := by
  constructor
  · unfold download_sample_cases download_with_robust_parsing withRestoredGet
    repeat' split
    all_goals try simp
    all_goals rcases b.retryCall with e | r <;> simp
  · intro m hm
    unfold download_sample_cases
    rw [hm]

/-- C5 witness: a non-assertion failure of the first call propagates
unchanged with zero retries, and the retry counter is at most one. -/
theorem c5_retry_policy_witness :
    (download_sample_cases Unit
      ⟨Except.error (PyExc.otherError "boom"), Except.ok "", Except.ok []⟩
      GetFn.base).2.1 ≤ 1 ∧
    download_sample_cases Unit
      ⟨Except.error (PyExc.otherError "boom"), Except.ok "", Except.ok []⟩
      GetFn.base = (Except.error (PyExc.otherError "boom"), 0, GetFn.base) :=
  ⟨(c5_retry_policy Unit _ _).1, (c5_retry_policy Unit _ _).2 "boom" rfl⟩

/-- C6: when the extractor finds no token, or the single retry fails, no
memory-limit value is fabricated: the graceful-mode wrapper returns the
empty list, and the strict-mode `patched_from_html` re-raises the original
`AssertionError` unchanged.  On the scenario page holding only a time limit
the extractor itself returns `none`. -/
theorem c6_no_fabrication :
    parse_memory_limit_from_html
      "<table><tr><th>Time Limit</th><td>2 sec</td></tr></table>" = none ∧
    (∀ (T : Type) (b : Behavior T) (g0 : GetFn) (h : String),
      b.fetch = Except.ok h → parse_memory_limit_from_html h = none →
      download_with_robust_parsing T b g0 = (Except.ok [], 0, g0)) ∧
    (∀ (T : Type) (b : Behavior T) (g0 : GetFn) (h lim : String) (e : PyExc),
      b.fetch = Except.ok h → parse_memory_limit_from_html h = some lim →
      lim ≠ "" → b.retryCall = Except.error e →
      download_with_robust_parsing T b g0 = (Except.ok [], 1, g0)) ∧
    (∀ (D : Type) (retryOn : String → Except PyExc D) (h m : String),
      patched_parse_memory_limit_from_html h = none →
      patched_from_html D (Except.error (PyExc.assertionError m)) retryOn h =
        Except.error (PyExc.assertionError m)) ∧
    (∀ (D : Type) (retryOn : String → Except PyExc D) (h lim m : String)
      (e2 : PyExc),
      patched_parse_memory_limit_from_html h = some lim → lim ≠ "" →
      hasLabelL h.data = false →
      retryOn (inject_memory_limit lim h) = Except.error e2 →
      patched_from_html D (Except.error (PyExc.assertionError m)) retryOn h =
        Except.error (PyExc.assertionError m)) := by
  refine ⟨by decide, ?_, ?_, ?_, ?_⟩
  · intro T b g0 h hfetch hparse
    unfold download_with_robust_parsing
    rw [hfetch]
    simp only [hparse]
  · intro T b g0 h lim e hfetch hparse hne hretry
    unfold download_with_robust_parsing withRestoredGet
    rw [hfetch]
    simp only [hparse, if_neg hne, hretry]
  · intro D retryOn h m hparse
    unfold patched_from_html
    simp only [hparse]
  · intro D retryOn h lim m e2 hparse hne hlab hretry
    unfold patched_from_html
    simp only [hparse]
    rw [if_pos ⟨hne, hlab⟩, hretry]

/-- C6 witness: the component statements evaluated on the scenario page with
only a time limit and on a page whose retry fails. -/
theorem c6_no_fabrication_witness :
    download_with_robust_parsing Unit
      ⟨Except.error (PyExc.assertionError "a"),
       Except.ok "<table><tr><th>Time Limit</th><td>2 sec</td></tr></table>",
       Except.ok []⟩ GetFn.base = (Except.ok [], 0, GetFn.base) ∧
    download_with_robust_parsing Unit
      ⟨Except.error (PyExc.assertionError "a"), Except.ok "<p>has 256 MB</p>",
       Except.error (PyExc.otherError "net")⟩ GetFn.base =
      (Except.ok [], 1, GetFn.base) ∧
    patched_from_html Unit (Except.error (PyExc.assertionError "a"))
      (fun _ => Except.ok ())
      "<table><tr><th>Time Limit</th><td>2 sec</td></tr></table>" =
      Except.error (PyExc.assertionError "a") ∧
    patched_from_html Unit (Except.error (PyExc.assertionError "a"))
      (fun _ => Except.error (PyExc.otherError "y")) "<p>has 256 MB</p>" =
      Except.error (PyExc.assertionError "a") := by
  refine ⟨?_, ?_, ?_, ?_⟩
  · exact c6_no_fabrication.2.1 Unit _ GetFn.base _ rfl (by decide)
  · exact c6_no_fabrication.2.2.1 Unit _ GetFn.base _ "256 MB"
      (PyExc.otherError "net") rfl (by decide) (by decide) rfl
  · exact c6_no_fabrication.2.2.2.1 Unit _ _ "a" (by decide)
  · exact c6_no_fabrication.2.2.2.2 Unit _ _ "256 MB" "a"
      (PyExc.otherError "y") (by decide) (by decide) (by decide) rfl

/-- C7: the synthetic-fragment injection is guarded and idempotent: if
either label is already present the text is unchanged, so re-injecting into
previously injected text is a no-op; otherwise the row is inserted exactly
before the first occurrence of the closing `</table>` when one exists, and
when no `</table>` exists a fresh table holding only the row is prepended. -/
theorem c7_injection_guarded_idempotent (lim html : List Char) :
    (hasLabelL html = true → injectL lim html = html) ∧
    injectL lim (injectL lim html) = injectL lim html ∧
    (∀ pre post : List Char, hasLabelL html = false →
      html = pre ++ "</table>".data ++ post →
      containsSubB (pre ++ ("</table>".data).dropLast) "</table>".data =
        false →
      injectL lim html =
        pre ++ (memorySection lim ++ "</table>".data) ++ post) ∧
    (hasLabelL html = false → containsSubB html "</table>".data = false →
      injectL lim html =
        "<table>".data ++ memorySection lim ++ "</table>".data ++ html) := by
  refine ⟨injectL_of_label lim html, injectL_idem lim html, ?_, ?_⟩
  · intro pre post hlab hdecomp hmin
    have hct : containsSubB html "</table>".data = true := by
      rw [hdecomp, List.append_assoc]
      apply containsSubB_append_right
      exact containsSubB_of_startsWithB _ _ (startsWithB_append _ _)
    unfold injectL
    rw [hlab]
    simp only [Bool.false_eq_true, if_false]
    rw [if_pos hct, hdecomp]
    exact replaceFirst_leftmost "</table>".data _ post (by decide) pre hmin
  · intro hlab hnt
    unfold injectL
    rw [hlab]
    simp only [Bool.false_eq_true, if_false]
    rw [if_neg (by simp [hnt])]

/-- C7 witness: the guard, the insertion before the first closing tag, and
the prepended fresh table, evaluated on concrete pages. -/
theorem c7_injection_witness :
    injectL "256 MB".data "see Memory Limit above".data =
      "see Memory Limit above".data ∧
    injectL "256 MB".data "<a></table>b".data =
      "<a>".data ++ (memorySection "256 MB".data ++ "</table>".data) ++
        "b".data ∧
    injectL "256 MB".data "<p>x</p>".data =
      "<table>".data ++ memorySection "256 MB".data ++ "</table>".data ++
        "<p>x</p>".data ∧
    injectL "256 MB".data
        (injectL "256 MB".data "<p>x</p>".data) =
      injectL "256 MB".data "<p>x</p>".data := by
  refine ⟨?_, ?_, ?_, ?_⟩
  · exact (c7_injection_guarded_idempotent "256 MB".data _).1 (by decide)
  · exact (c7_injection_guarded_idempotent "256 MB".data _).2.2.1
      "<a>".data "b".data (by decide) (by decide) (by decide)
  · exact (c7_injection_guarded_idempotent "256 MB".data _).2.2.2
      (by decide) (by decide)
  · exact (c7_injection_guarded_idempotent "256 MB".data "<p>x</p>".data).2.1

/-- C8: the mocked `session.get` never leaks: on every path of the robust
download — fetch failure, extraction miss, retry success, retry failure —
the final value of `session.get` equals the value it held on entry, and the
same holds through the wrapping `download_sample_cases`. -/
theorem c8_get_restored (T : Type) (b : Behavior T) (g0 : GetFn) :
    (∀ (during : GetFn) (body : Except PyExc (List T)),
      (withRestoredGet T during body g0).2 = g0) ∧
    (download_with_robust_parsing T b g0).2.2 = g0 ∧
    (download_sample_cases T b g0).2.2 = g0 := by
  refine ⟨?_, ?_, ?_⟩
  · intro during body
    unfold withRestoredGet
    rcases body with e | r <;> rfl
  · unfold download_with_robust_parsing withRestoredGet
    repeat' split
    all_goals try rfl
    all_goals rcases b.retryCall with e | r <;> rfl
  · unfold download_sample_cases download_with_robust_parsing withRestoredGet
    repeat' split
    all_goals try rfl
    all_goals rcases b.retryCall with e | r <;> rfl

/-- C8 witness: restoration on a concrete failing retry. -/
theorem c8_get_restored_witness :
    (withRestoredGet Unit (GetFn.mock "h" GetFn.base)
      (Except.error (PyExc.otherError "x")) GetFn.base).2 = GetFn.base :=
  (c8_get_restored Unit
    ⟨Except.ok [], Except.ok "", Except.ok []⟩ GetFn.base).1
    (GetFn.mock "h" GetFn.base) (Except.error (PyExc.otherError "x"))

/-- C9: the two extractor variants are extensionally (indeed
definitionally) equal: the Python sources of
`parse_memory_limit_from_html` and `_patched_parse_memory_limit_from_html`
are textually identical, and so are their embeddings. -/
theorem c9_variants_extensionally_equal :
    ∀ html : String, parse_memory_limit_from_html html =
      patched_parse_memory_limit_from_html html :=
  fun _ => rfl

/-- C10: every pattern makes the unit prefix letter optional, so a bare `B`
token is matched: the labeled inline pattern captures `256 B`, a reversed
`512 B memory` capture works, and in the plausibility scan the bare-B token
`100 B` re-matches with an empty unit group, whose `mb_value` is the bare
number (exactly as for `MB`), so `100 B` is returned. -/
theorem c10_bare_b_unit :
    parse_memory_limit_from_html "value: 100 B here" = some "100 B" ∧
    parse_memory_limit_from_html "Memory Limit: 256 B" = some "256 B" ∧
    parse_memory_limit_from_html "uses 512 B memory" = some "512 B" ∧
    parse_memory_limit_from_html "<th>Memory Limit</th><td>10 B</td>" =
      some "10 B" ∧
    matchNumUnit "100 B".data = some (⟨100, 1⟩, none) ∧
    mb_value ⟨100, 1⟩ (unitUpper none) = ⟨100, 1⟩ ∧
    mb_value ⟨100, 1⟩ (unitUpper (some 'M')) = ⟨100, 1⟩ := by
  decide
